import Mathlib

/-!
Shallow embedding of the conversation-graph state manager (the Zustand chat
store of the Mutec repository) and proofs about its operations.

The store keeps a tree of conversation nodes (each with an ordered chat
history), an edge list, the active node id and its derived root-to-node path,
and persists snapshots to session storage.  Node positions are
presentation-only 2D coordinates; they are modelled as integer pairs.
Presentation-only fields with constant values (the `markerEnd` arrow style on
edges, object-URL previews) carry no logic and are modelled as plain data.
-/

/-- Message author: the store's `role: 'user' | 'model'`. -/
inductive Role where
  | user
  | model
deriving DecidableEq, Repr

/-- `AttachmentData`: name, MIME type, base64 data and a preview handle. -/
structure AttachmentData where
  name : String
  type : String
  data : String
  previewUrl : String
deriving DecidableEq, Repr

/-- `ChatMessage`: role, content, optional attachments, optional model tag.
`attachments` and `modelId` are optional fields in the source
(`attachments?`, `modelId?`); absence is modelled as `none`. -/
structure ChatMessage where
  role : Role
  content : String
  attachments : Option (List AttachmentData)
  modelId : Option String
deriving DecidableEq, Repr

/-- `CustomNodeData`: display label and ordered chat history. -/
structure CustomNodeData where
  label : String
  chatHistory : List ChatMessage
deriving DecidableEq, Repr

/-- A graph node (`Node<CustomNodeData>` of the flow library): id, render
type tag, payload and 2D position. -/
structure FlowNode where
  id : String
  type : String
  data : CustomNodeData
  position : Int × Int
deriving DecidableEq, Repr

/-- A graph edge: id plus `source` and `target` node ids. -/
structure FlowEdge where
  id : String
  source : String
  target : String
deriving DecidableEq, Repr

/-- The store state relevant to the graph manager: nodes, edges, the active
node id and the derived active path (node ids, edge ids). -/
structure ChatState where
  nodes : List FlowNode
  edges : List FlowEdge
  activeNodeId : Option String
  activePathNodeIds : List String
  activePathEdgeIds : List String
deriving DecidableEq, Repr

/-- The distinguished `ROOT_NODE` constant of the store. -/
def ROOT_NODE : FlowNode :=
  { id := "root"
    type := "chatNode"
    data := { label := "Start your conversation", chatHistory := [] }
    position := (250, 50) }

/-- JavaScript falsiness of an optional string argument (`!x` is true for
`undefined` and for the empty string). -/
def jsFalsy (o : Option String) : Prop :=
  o = none ∨ o = some ""

instance (o : Option String) : Decidable (jsFalsy o) := by
  unfold jsFalsy; infer_instance

/-- Substring test modelling JavaScript `String.prototype.includes`. -/
def strIncludes (s pat : String) : Bool :=
  s.data.tails.any (fun t => pat.data.isPrefixOf t)

/-- Prefix test modelling JavaScript `String.prototype.startsWith` on the
character-sequence view. -/
def strStartsWith (s pre : String) : Bool :=
  pre.data.isPrefixOf s.data

/-- The first `n` characters of a string, modelling JavaScript
`substring(0, n)` on the character-sequence view. -/
def strTake (s : String) (n : Nat) : String :=
  String.mk (s.data.take n)

/-! ## Message ledger operations -/

/-- Per-node history update of `addMessageToNode`: when `isPartial` is true
and the last message has the incoming message's role, the last message's
content is rewritten in place (the source maps over the history replacing
the entry at the last index); otherwise the message is appended. -/
def addMsgToHistory (h : List ChatMessage) (message : ChatMessage)
    (isPartial : Bool) : List ChatMessage :=
  let isSameRole : Bool :=
    match h.getLast? with
    | some lastMessage => lastMessage.role == message.role
    | none => false
  if isPartial && isSameRole then
    h.mapIdx (fun idx msg =>
      if idx = h.length - 1 then { msg with content := message.content } else msg)
  else
    h ++ [message]

/-- `addMessageToNode` (state part): updates the chat history of the node
with the given id.  The asynchronous title-regeneration callback and the
storage save are external side effects and are not part of the synchronous
state transition. -/
def addMessageToNode (s : ChatState) (nodeId : String) (message : ChatMessage)
    (isPartial : Bool) : ChatState :=
  { s with nodes := s.nodes.map (fun node =>
      if node.id = nodeId then
        { node with data :=
            { node.data with
                chatHistory := addMsgToHistory node.data.chatHistory message isPartial } }
      else node) }

/-- `removeLastMessageFromNode`: drops the most recent message of the node. -/
def removeLastMessageFromNode (s : ChatState) (nodeId : String) : ChatState :=
  { s with nodes := s.nodes.map (fun node =>
      if node.id = nodeId then
        { node with data :=
            { node.data with chatHistory := node.data.chatHistory.dropLast } }
      else node) }

/-! ## Descendant collection (worklists over the edge list)

`onNodesChange` and `deleteNodeAndDescendants` collect descendants with a
breadth-first walk that checks membership before enqueueing a target, so one
pop can only enqueue targets not seen before; that walk always terminates
and is defined by well-founded recursion.  `resetNode`'s walk enqueues
targets unconditionally and can diverge on cyclic edge sets, so it is
modelled with explicit fuel (`none` = the source loop never exits). -/

/-- One edge scanned during a pop of the checked walk: if the edge leaves
the popped node and its target is not yet in the visited set, the target is
appended to both the queue and the visited set. -/
def bfsStep (u : String) (qv : List String × List String) (e : FlowEdge) :
    List String × List String :=
  if e.source = u ∧ qv.2.contains e.target = false then
    (qv.1 ++ [e.target], qv.2 ++ [e.target])
  else qv

/-- One full pop of the checked walk: scan every edge in order
(`state.edges.forEach`). -/
def bfsPush (es : List FlowEdge) (u : String) (q v : List String) :
    List String × List String :=
  es.foldl (bfsStep u) (q, v)

/-- Number of edges whose target is not yet visited; part of the
termination measure of the checked walk. -/
def unvisitedCount (es : List FlowEdge) (v : List String) : Nat :=
  (es.filter (fun e => !(v.contains e.target))).length

theorem length_filter_le_length_filter {α : Type} (p q : α → Bool)
    (l : List α) (hpq : ∀ a ∈ l, p a = true → q a = true) :
    (l.filter p).length ≤ (l.filter q).length := by
  induction l with
  | nil => simp
  | cons b l ih =>
    have hb := hpq b (by simp)
    have ht : ∀ a ∈ l, p a = true → q a = true := fun a ha => hpq a (by simp [ha])
    by_cases hpb : p b = true
    · have hqb : q b = true := hb hpb
      simp [List.filter_cons, hpb, hqb]
      exact ih ht
    · have hpb' : p b = false := by simpa using hpb
      by_cases hqb : q b = true <;>
        simp [List.filter_cons, hpb', hqb] <;> [exact Nat.le_succ_of_le (ih ht); exact ih ht]

theorem length_filter_lt_length_filter {α : Type} (p q : α → Bool)
    (l : List α) (hpq : ∀ a ∈ l, p a = true → q a = true) (a₀ : α)
    (ha : a₀ ∈ l) (hq : q a₀ = true) (hp : p a₀ = false) :
    (l.filter p).length < (l.filter q).length := by
  induction l with
  | nil => cases ha
  | cons b l ih =>
    have hb := hpq b (by simp)
    have ht : ∀ a ∈ l, p a = true → q a = true := fun a h => hpq a (by simp [h])
    rcases List.mem_cons.mp ha with rfl | ha'
    · have hpb : p a₀ = false := hp
      simp [List.filter_cons, hpb, hq]
      exact Nat.lt_succ_of_le (length_filter_le_length_filter p q l ht)
    · by_cases hpb : p b = true
      · have hqb : q b = true := hb hpb
        simp [List.filter_cons, hpb, hqb]
        exact ih ht ha'
      · have hpb' : p b = false := by simpa using hpb
        by_cases hqb : q b = true <;> simp [List.filter_cons, hpb', hqb]
        · exact Nat.lt_succ_of_lt (ih ht ha')
        · exact ih ht ha'

theorem unvisitedCount_append_lt (es : List FlowEdge) (v : List String)
    (e : FlowEdge) (he : e ∈ es) (hv : v.contains e.target = false) :
    unvisitedCount es (v ++ [e.target]) < unvisitedCount es v := by
  unfold unvisitedCount
  refine length_filter_lt_length_filter _ _ es ?_ e he ?_ ?_
  · intro a _ hpa
    simp only [Bool.not_eq_true'] at hpa ⊢
    simp at hpa ⊢
    exact hpa.1
  · simpa using hv
  · simp

theorem bfsPush_measure (es : List FlowEdge) (u : String) (l : List FlowEdge)
    (hl : ∀ e ∈ l, e ∈ es) : ∀ q v : List String,
    (l.foldl (bfsStep u) (q, v)).1.length +
      unvisitedCount es (l.foldl (bfsStep u) (q, v)).2 ≤
    q.length + unvisitedCount es v := by
  induction l with
  | nil => intro q v; simp
  | cons e l ih =>
    intro q v
    have he : e ∈ es := hl e (by simp)
    have ht : ∀ x ∈ l, x ∈ es := fun x hx => hl x (by simp [hx])
    simp only [List.foldl_cons]
    by_cases hc : e.source = u ∧ (v.contains e.target) = false
    · have hstep : bfsStep u (q, v) e = (q ++ [e.target], v ++ [e.target]) := by
        unfold bfsStep; rw [if_pos hc]
      rw [hstep]
      have h1 := ih ht (q ++ [e.target]) (v ++ [e.target])
      have h2 := unvisitedCount_append_lt es v e he hc.2
      simp only [List.length_append, List.length_cons, List.length_nil] at h1 ⊢
      omega
    · have hstep : bfsStep u (q, v) e = (q, v) := by
        unfold bfsStep; rw [if_neg hc]
      rw [hstep]
      exact ih ht q v

/-- The checked breadth-first walk: pops the queue head, pushes and marks
every unvisited target of its outgoing edges, and returns the visited set
when the queue is exhausted. -/
def bfsAux (es : List FlowEdge) (q v : List String) : List String :=
  match q with
  | [] => v
  | u :: rest => bfsAux es (bfsPush es u rest v).1 (bfsPush es u rest v).2
termination_by q.length + unvisitedCount es v
decreasing_by
  have h := bfsPush_measure es u es (fun e he => he) rest v
  simp only [bfsPush] at *
  simp only [List.length_cons]
  omega

/-- One edge scanned during a pop of `resetNode`'s walk: the target of every
outgoing edge is pushed on the queue unconditionally and inserted in the
removal set (a JavaScript `Set`, hence insert-if-absent). -/
def resetStep (u : String) (qv : List String × List String) (e : FlowEdge) :
    List String × List String :=
  if e.source = u then
    (qv.1 ++ [e.target],
     if qv.2.contains e.target then qv.2 else qv.2 ++ [e.target])
  else qv

/-- One full pop of `resetNode`'s walk. -/
def resetPush (es : List FlowEdge) (u : String) (q acc : List String) :
    List String × List String :=
  es.foldl (resetStep u) (q, acc)

/-- `resetNode`'s descendant-collection loop, with fuel: `none` models a
run of the source's `while` loop that never exits. -/
def resetGo (es : List FlowEdge) : Nat → List String → List String → Option (List String)
  | _, [], acc => some acc
  | 0, _ :: _, _ => none
  | fuel + 1, u :: rest, acc =>
      resetGo es fuel (resetPush es u rest acc).1 (resetPush es u rest acc).2

/-- `updateLastMessageInNode`: rewrites the content of the node's last
message when the history is non-empty, the last message's role is `model`,
and the `modelId` filter is absent (JavaScript-falsy) or matches the last
message's recorded `modelId`. -/
def updateLastMessageInNode (s : ChatState) (nodeId content : String)
    (modelId : Option String) : ChatState :=
  { s with nodes := s.nodes.map (fun node =>
      if node.id = nodeId ∧ 0 < node.data.chatHistory.length then
        match node.data.chatHistory.getLast? with
        | some lastMessage =>
          if lastMessage.role = Role.model ∧
              (jsFalsy modelId ∨ lastMessage.modelId = modelId) then
            { node with data :=
                { node.data with chatHistory :=
                    node.data.chatHistory.dropLast ++
                      [{ lastMessage with content := content }] } }
          else node
        | none => node
      else node) }

/-! ## Path resolver -/

/-- The `incoming` map of the path walk: `edges.forEach` inserts
`target -> source` into a `Map`, so for duplicate targets the last edge in
the list wins; lookup is modelled by searching the reversed edge list. -/
def incomingOf (es : List FlowEdge) (t : String) : Option String :=
  (es.reverse.find? (fun e => e.target == t)).map FlowEdge.source

/-- The backward walk of `getPathNodeIds`: prepend the current id, follow
the incoming map, and stop when there is no parent (`undefined`) or the
parent id is falsy (the empty string).  Fuel models the source's unbounded
`while` loop; `none` means the loop never exits. -/
def walkUp (incoming : String → Option String) :
    Nat → String → List String → Option (List String)
  | 0, _, _ => none
  | fuel + 1, currentId, path =>
    match incoming currentId with
    | none => some (currentId :: path)
    | some p =>
      if p = "" then some (currentId :: path)
      else walkUp incoming fuel p (currentId :: path)

/-- `getPathNodeIds`: the ordered root-first chain of node ids ending at
`targetNodeId`.  A terminating run of the source walk visits pairwise
distinct ids (revisiting an id would loop forever on the fixed incoming
map), so it makes at most `edges.length + 1` steps; that fuel makes the
embedding return `none` exactly when the source loop diverges. -/
def getPathNodeIds (s : ChatState) (targetNodeId : String) : Option (List String) :=
  if targetNodeId = "" then some []
  else walkUp (incomingOf s.edges) (s.edges.length + 1) targetNodeId []

/-- The edge-id resolution of `getPathEdgeIds`: for each consecutive pair
of path node ids, the first edge whose `(source, target)` matches is taken;
pairs with no matching edge are silently skipped. -/
def pathEdgesOf (es : List FlowEdge) (nodeIds : List String) : List String :=
  (nodeIds.zip nodeIds.tail).filterMap (fun st =>
    (es.find? (fun e => e.source == st.1 && e.target == st.2)).map FlowEdge.id)

/-- `getPathEdgeIds`: ordered edge ids connecting consecutive path nodes. -/
def getPathEdgeIds (s : ChatState) (targetNodeId : String) : Option (List String) :=
  (getPathNodeIds s targetNodeId).map (pathEdgesOf s.edges)

/-- `getPathToNode` rebuilds each collected message literally
(`{role, content, attachments: msg.attachments || []}`): absent attachments
become the empty list and the `modelId` tag is dropped. -/
def normalizeMsg (m : ChatMessage) : ChatMessage :=
  { role := m.role, content := m.content
    attachments := some (m.attachments.getD []), modelId := none }

/-- `getPathToNode`: the concatenation, in root-first path order, of every
message of every node on the path (ids with no matching node contribute
nothing). -/
def getPathToNode (s : ChatState) (targetNodeId : String) : Option (List ChatMessage) :=
  (getPathNodeIds s targetNodeId).map (fun pathNodeIds =>
    pathNodeIds.flatMap (fun id =>
      match s.nodes.find? (fun n => n.id == id) with
      | some node => node.data.chatHistory.map normalizeMsg
      | none => []))

/-! ## Graph mutator -/

/-- Modelled from the @xyflow/react library (an external collaborator, not
part of this repository): the node-change deltas the store receives from
the UI layer.  Only the structural variants that can affect the store's
invariants are modelled: removal, position updates and insertion. -/
inductive NodeChange where
  | remove (id : String)
  | position (id : String) (pos : Int × Int)
  | add (node : FlowNode)

/-- Modelled from the @xyflow/react library: applies a batch of changes to
a node array (removals filter, position changes update, adds append). -/
def applyNodeChanges (changes : List NodeChange) (nodes : List FlowNode) :
    List FlowNode :=
  changes.foldl (fun ns c =>
    match c with
    | NodeChange.remove id => ns.filter (fun n => !(n.id == id))
    | NodeChange.position id pos =>
        ns.map (fun n => if n.id = id then { n with position := pos } else n)
    | NodeChange.add node => ns ++ [node]) nodes

/-- The removal seeds of `onNodesChange`: ids of `remove` changes, with a
remove of `root` silently dropped; a JavaScript `Set`, so insertion
de-duplicates. -/
def removalSeeds (changes : List NodeChange) : List String :=
  changes.foldl (fun acc c =>
    match c with
    | NodeChange.remove id =>
        if id = "root" then acc
        else if acc.contains id then acc else acc ++ [id]
    | _ => acc) []

/-- `onNodesChange`: drops root removals, cascades the remaining removals
over all descendants, applies the raw changes to the surviving nodes,
re-inserts the canonical `ROOT_NODE` if the result lost `root`, and removes
every edge incident to a removed node. -/
def onNodesChange (s : ChatState) (changes : List NodeChange) : ChatState :=
  let seeds := removalSeeds changes
  let nodesToRemove :=
    if 0 < seeds.length then
      let descendants := bfsAux s.edges seeds []
      seeds ++ descendants.filter (fun id => !(seeds.contains id))
    else seeds
  let remainingNodes := s.nodes.filter (fun n => !(nodesToRemove.contains n.id))
  let appliedChanges := applyNodeChanges changes remainingNodes
  let restored :=
    if appliedChanges.any (fun n => n.id == "root") then appliedChanges
    else appliedChanges ++ [ROOT_NODE]
  { s with
      nodes := restored
      edges := s.edges.filter (fun e =>
        !(nodesToRemove.contains e.source) && !(nodesToRemove.contains e.target)) }

/-- `deleteNodeAndDescendants`: no-op on `root`; otherwise removes the node,
all its descendants (checked breadth-first walk seeded with the node) and
every edge incident to a removed node. -/
def deleteNodeAndDescendants (s : ChatState) (nodeId : String) : ChatState :=
  if nodeId = "root" then s
  else
    let nodesToRemove := bfsAux s.edges [nodeId] [nodeId]
    { s with
        nodes := s.nodes.filter (fun n => !(nodesToRemove.contains n.id))
        edges := s.edges.filter (fun e =>
          !(nodesToRemove.contains e.source) && !(nodesToRemove.contains e.target)) }

/-- `resetNode`: collects all descendants with the unchecked walk (fuel,
`none` = the source loop diverges), clears the node's history, resets its
label to the `'New Chat'` placeholder and removes the collected descendants
and their edges. -/
def resetNode (s : ChatState) (nodeId : String) (fuel : Nat) : Option ChatState :=
  match resetGo s.edges fuel [nodeId] [] with
  | none => none
  | some nodesToRemove =>
    some { s with
      nodes := (s.nodes.map (fun node =>
        if node.id = nodeId then
          { node with data := { node.data with chatHistory := [], label := "New Chat" } }
        else node)).filter (fun node => !(nodesToRemove.contains node.id))
      edges := s.edges.filter (fun e =>
        !(nodesToRemove.contains e.target) && !(nodesToRemove.contains e.source)) }

/-! ## Document inheritance -/

/-- The MIME filter of the inheritance scan: PDF, any `text/*`, or a type
mentioning `javascript` or `python`. -/
def isDocumentType (t : String) : Bool :=
  t == "application/pdf" || strStartsWith t "text/" ||
    strIncludes t "javascript" || strIncludes t "python"

/-- The de-duplication key of the inheritance scan: the source compares the
concatenated string `name + ':' + type`. -/
def attKey (a : AttachmentData) : String :=
  a.name ++ ":" ++ a.type

/-- One attachment processed by the inheritance scan: keep document-like
attachments whose key is not yet present. -/
def inheritedStep (docs : List AttachmentData) (att : AttachmentData) :
    List AttachmentData :=
  if isDocumentType att.type then
    if docs.any (fun doc => attKey doc == attKey att) then docs
    else docs ++ [{ name := att.name, type := att.type
                    data := att.data, previewUrl := att.previewUrl }]
  else docs

/-- The inherited-document computation of `createNodeAndEdge`: scan every
message of the path in order and fold its attachments through
`inheritedStep`. -/
def inheritedDocuments (pathToSource : List ChatMessage) : List AttachmentData :=
  pathToSource.foldl (fun docs msg => (msg.attachments.getD []).foldl inheritedStep docs) []

/-- Modelled from the spec: the external `nanoid()` generator "allocates a
fresh unique id".  The model concatenates every id-like string of the state
and appends a character, which is provably distinct from every existing
node id, edge id, edge source and edge target. -/
def freshNodeId (s : ChatState) : String :=
  ((s.nodes.map FlowNode.id) ++ (s.edges.map FlowEdge.id) ++
    (s.edges.map FlowEdge.source) ++ (s.edges.map FlowEdge.target)).foldl
      (fun a b => a ++ b) "" ++ "x"

/-- Modelled from the @xyflow/react library: `addEdge` appends the new edge
unless an edge with the same source and target is already present. -/
def addEdge (e : FlowEdge) (es : List FlowEdge) : List FlowEdge :=
  if es.any (fun x => x.source == e.source && x.target == e.target) then es
  else es ++ [e]

/-- The node kind of `createNodeAndEdge`: `'response' | 'branch'`. -/
inductive CreateKind where
  | response
  | branch
deriving DecidableEq, Repr

/-- `createNodeAndEdge`: returns the empty sentinel id (state unchanged)
when the source node does not exist; otherwise allocates a fresh id,
computes the new node's position from the source's, gathers the path to the
source (for document inheritance, an external thread side effect), and adds
the new empty-history node plus an edge `source -> new`.  `none` models a
divergent path walk. -/
def createNodeAndEdge (s : ChatState) (sourceNodeId label : String)
    (kind : CreateKind) : Option (String × ChatState) :=
  match s.nodes.find? (fun n => n.id == sourceNodeId) with
  | none => some ("", s)
  | some sourceNode =>
    let newNodeId := freshNodeId s
    let newX := sourceNode.position.1 + (if kind = CreateKind.branch then 350 else 0)
    let newY := sourceNode.position.2 + 250
    match getPathToNode s sourceNodeId with
    | none => none
    | some pathToSource =>
      let _inherited := inheritedDocuments pathToSource
      let newNode : FlowNode :=
        { id := newNodeId, type := "chatNode"
          data := { label := label, chatHistory := [] }
          position := (newX, newY) }
      let newEdge : FlowEdge :=
        { id := "e-" ++ sourceNodeId ++ "-" ++ newNodeId
          source := sourceNodeId, target := newNodeId }
      some (newNodeId,
        { s with nodes := s.nodes ++ [newNode], edges := addEdge newEdge s.edges })

/-! ## Persistence (session tier) -/

/-- The persisted session snapshot `{nodes, edges, activeNodeId, timestamp,
version}`. -/
structure SessionData where
  nodes : List FlowNode
  edges : List FlowEdge
  activeNodeId : Option String
  timestamp : Nat
  version : String
deriving DecidableEq, Repr

/-- The serialized-size ceiling: `4.5 * 1024 * 1024` code units. -/
def SESSION_SIZE_LIMIT : Nat := 4718592

/-- Message compaction of the oversized-save path: content beyond 10000
characters is truncated with a marker, attachments of 100000 or more data
characters are dropped (and absent attachment lists become empty ones). -/
def compressMessage (msg : ChatMessage) : ChatMessage :=
  { msg with
      content :=
        if 10000 < msg.content.length then strTake msg.content 10000 ++ "...[truncated]"
        else msg.content
      attachments := some ((msg.attachments.getD []).filter
        (fun att => att.data.length < 100000)) }

/-- The compacted variant attempted by `saveSessionData` on overflow. -/
def compressSessionData (data : SessionData) : SessionData :=
  { data with nodes := data.nodes.map (fun node =>
      { node with data :=
          { node.data with chatHistory := node.data.chatHistory.map compressMessage } }) }

/-- `saveSessionData`, parametrized by the serialization function
(`JSON.stringify`, external) and the current session-storage slot.  Returns
the success flag and the new slot contents.  The `QuotaExceededError`
retry path handles a thrown storage exception and is outside this
synchronous model. -/
def saveSessionData (stringify : SessionData → String) (slot : Option String)
    (data : SessionData) : Bool × Option String :=
  let serialized := stringify data
  if SESSION_SIZE_LIMIT < serialized.length then
    let compressedData := compressSessionData data
    let compressedSerialized := stringify compressedData
    if SESSION_SIZE_LIMIT < compressedSerialized.length then (false, slot)
    else (true, some compressedSerialized)
  else (true, some serialized)

/-! ## Reachability theory for the cascade walks -/

/-- Strict reachability along the edge list: a non-empty chain of edges
leads from `a` to `b`.  This is the mathematical notion of "strict
descendant" the cascade operations are measured against. -/
inductive SReach (es : List FlowEdge) : String → String → Prop where
  | single {a b : String} (e : FlowEdge) (he : e ∈ es) (hs : e.source = a)
      (ht : e.target = b) : SReach es a b
  | tail {a b c : String} (h : SReach es a b) (e : FlowEdge) (he : e ∈ es)
      (hs : e.source = b) (ht : e.target = c) : SReach es a c

/-- An edge can be prepended to a reachability chain. -/
theorem SReach.head {es : List FlowEdge} {a b c : String} (e : FlowEdge)
    (he : e ∈ es) (hs : e.source = a) (ht : e.target = b)
    (h : SReach es b c) : SReach es a c := by
  induction h with
  | single e' he' hs' ht' => exact SReach.tail (SReach.single e he hs ht) e' he' hs' ht'
  | tail h' e' he' hs' ht' ih => exact SReach.tail ih e' he' hs' ht'

/-- An acyclic edge set: no node strictly reaches itself. -/
def Acyclic (es : List FlowEdge) : Prop :=
  ∀ v, ¬ SReach es v v

/-- Shape of one pop of the checked walk: the same list of freshly
discovered targets (all of them targets of edges leaving `u`) is appended
to the queue and to the visited set. -/
theorem bfsFold_shape (u : String) (es l : List FlowEdge)
    (hl : ∀ e ∈ l, e ∈ es) : ∀ q v : List String, ∃ ts : List String,
    (l.foldl (bfsStep u) (q, v)).1 = q ++ ts ∧
    (l.foldl (bfsStep u) (q, v)).2 = v ++ ts ∧
    (∀ x ∈ ts, ∃ e ∈ es, e.source = u ∧ e.target = x) := by
  induction l with
  | nil => intro q v; exact ⟨[], by simp, by simp, by simp⟩
  | cons e l ih =>
    intro q v
    have he : e ∈ es := hl e (by simp)
    have ht : ∀ x ∈ l, x ∈ es := fun x hx => hl x (by simp [hx])
    simp only [List.foldl_cons]
    by_cases hc : e.source = u ∧ (v.contains e.target) = false
    · have hstep : bfsStep u (q, v) e = (q ++ [e.target], v ++ [e.target]) := by
        unfold bfsStep; rw [if_pos hc]
      rw [hstep]
      obtain ⟨ts, h1, h2, h3⟩ := ih ht (q ++ [e.target]) (v ++ [e.target])
      refine ⟨e.target :: ts, ?_, ?_, ?_⟩
      · rw [h1]; simp
      · rw [h2]; simp
      · intro x hx
        rcases List.mem_cons.mp hx with rfl | hx'
        · exact ⟨e, he, hc.1, rfl⟩
        · exact h3 x hx'
    · have hstep : bfsStep u (q, v) e = (q, v) := by
        unfold bfsStep; rw [if_neg hc]
      rw [hstep]; exact ih ht q v

/-- After one full pop of the checked walk, every target of an edge leaving
the popped node is visited. -/
theorem bfsFold_covers (u : String) (es l : List FlowEdge)
    (hl : ∀ e ∈ l, e ∈ es) : ∀ q v : List String, ∀ e ∈ l, e.source = u →
    e.target ∈ (l.foldl (bfsStep u) (q, v)).2 := by
  induction l with
  | nil => intro q v e he; cases he
  | cons e' l ih =>
    intro q v e he hsrc
    have ht : ∀ x ∈ l, x ∈ es := fun x hx => hl x (by simp [hx])
    simp only [List.foldl_cons]
    rcases List.mem_cons.mp he with rfl | he'
    · by_cases hc : e.source = u ∧ (v.contains e.target) = false
      · have hstep : bfsStep u (q, v) e = (q ++ [e.target], v ++ [e.target]) := by
          unfold bfsStep; rw [if_pos hc]
        rw [hstep]
        obtain ⟨ts, _, h2, _⟩ := bfsFold_shape u es l ht (q ++ [e.target]) (v ++ [e.target])
        rw [h2]; simp
      · have hvt : e.target ∈ v := by
          by_contra hf
          exact hc ⟨hsrc, by simpa using hf⟩
        have hstep : bfsStep u (q, v) e = (q, v) := by
          unfold bfsStep; rw [if_neg hc]
        rw [hstep]
        obtain ⟨ts, _, h2, _⟩ := bfsFold_shape u es l ht q v
        rw [h2]
        exact List.mem_append_left _ hvt
    · have := ih ht (bfsStep u (q, v) e').1 (bfsStep u (q, v) e').2 e he' hsrc
      simpa using this

/-- The visited set only grows along the checked walk. -/
theorem bfsAux_mono (es : List FlowEdge) (q v : List String) :
    ∀ x ∈ v, x ∈ bfsAux es q v := by
  induction q, v using bfsAux.induct es with
  | case1 v => intro x hx; rw [bfsAux]; exact hx
  | case2 v u rest ih =>
    intro x hx
    rw [bfsAux]
    obtain ⟨ts, h1, h2, h3⟩ := bfsFold_shape u es es (fun e he => he) rest v
    apply ih
    simp only [bfsPush] at *
    rw [h2]
    exact List.mem_append_left _ hx

/-- Worklist invariant of the checked walk: if every visited node is
pending or has all its children visited, the final visited set is closed
under outgoing edges. -/
theorem bfsAux_closed (es : List FlowEdge) (q v : List String) :
    (∀ x ∈ v, x ∈ q ∨ ∀ e ∈ es, e.source = x → e.target ∈ v) →
    ∀ x ∈ bfsAux es q v, ∀ e ∈ es, e.source = x → e.target ∈ bfsAux es q v := by
  induction q, v using bfsAux.induct es with
  | case1 v =>
    intro hinv x hx e he hsrc
    rw [bfsAux] at hx ⊢
    rcases hinv x hx with h | h
    · cases h
    · exact h e he hsrc
  | case2 v u rest ih =>
    intro hinv
    rw [bfsAux]
    apply ih
    obtain ⟨ts, h1, h2, h3⟩ := bfsFold_shape u es es (fun e he => he) rest v
    have hcov := bfsFold_covers u es es (fun e he => he) rest v
    simp only [bfsPush] at *
    rw [h1, h2]
    intro x hx
    rcases List.mem_append.mp hx with hxv | hxts
    · rcases hinv x hxv with hq | hcl
      · rcases List.mem_cons.mp hq with rfl | hrest
        · right
          intro e he hsrc
          have hin := hcov e he hsrc
          rw [h2] at hin
          exact hin
        · left; exact List.mem_append_left _ hrest
      · right
        intro e he hsrc
        exact List.mem_append_left _ (hcl e he hsrc)
    · left; exact List.mem_append_right _ hxts

/-- Soundness of the checked walk: any property that holds on the queue and
the visited set and is preserved along edges holds on the result. -/
theorem bfsAux_sound (es : List FlowEdge) (W : String → Prop)
    (hW : ∀ x, W x → ∀ e ∈ es, e.source = x → W e.target) (q v : List String) :
    (∀ x ∈ q, W x) → (∀ x ∈ v, W x) → ∀ x ∈ bfsAux es q v, W x := by
  induction q, v using bfsAux.induct es with
  | case1 v =>
    intro _ hv x hx
    rw [bfsAux] at hx
    exact hv x hx
  | case2 v u rest ih =>
    intro hq hv
    rw [bfsAux]
    obtain ⟨ts, h1, h2, h3⟩ := bfsFold_shape u es es (fun e he => he) rest v
    simp only [bfsPush] at *
    apply ih
    · rw [h1]
      intro x hx
      rcases List.mem_append.mp hx with h | h
      · exact hq x (by simp [h])
      · obtain ⟨e, he, hsrc, htgt⟩ := h3 x h
        exact htgt ▸ hW u (hq u (by simp)) e he hsrc
    · rw [h2]
      intro x hx
      rcases List.mem_append.mp hx with h | h
      · exact hv x h
      · obtain ⟨e, he, hsrc, htgt⟩ := h3 x h
        exact htgt ▸ hW u (hq u (by simp)) e he hsrc

/-- The removal set of `deleteNodeAndDescendants` is exactly the node
itself together with its strict descendants, on every edge list. -/
theorem mem_bfsAux_delete (es : List FlowEdge) (n x : String) :
    x ∈ bfsAux es [n] [n] ↔ x = n ∨ SReach es n x := by
  constructor
  · intro hx
    refine bfsAux_sound es (fun y => y = n ∨ SReach es n y) ?_ [n] [n] ?_ ?_ x hx
    · rintro y (rfl | hy) e he hsrc
      · right; exact SReach.single e he hsrc rfl
      · right; exact SReach.tail hy e he hsrc rfl
    · intro y hy; left; simpa using hy
    · intro y hy; left; simpa using hy
  · have hclosed := bfsAux_closed es [n] [n] (fun x hx => Or.inl hx)
    have hn : n ∈ bfsAux es [n] [n] := bfsAux_mono es [n] [n] n (by simp)
    rintro (rfl | hr)
    · exact hn
    · induction hr with
      | single e he hsrc htgt => exact htgt ▸ hclosed n hn e he hsrc
      | tail h e he hsrc htgt ih => exact htgt ▸ hclosed _ ih e he hsrc

/-- Shape of one pop of the unchecked walk: the queue is extended by the
targets of the edges leaving `u` (in order), the removal set gains exactly
the new ones among them, and every such target ends up in the removal
set. -/
theorem resetFold_shape (u : String) (es l : List FlowEdge)
    (hl : ∀ e ∈ l, e ∈ es) : ∀ q acc : List String, ∃ ts : List String,
    (l.foldl (resetStep u) (q, acc)).1 = q ++ ts ∧
    (∀ x ∈ ts, ∃ e ∈ es, e.source = u ∧ e.target = x) ∧
    ts.length ≤ l.length ∧
    (∀ x ∈ acc, x ∈ (l.foldl (resetStep u) (q, acc)).2) ∧
    (∀ x ∈ (l.foldl (resetStep u) (q, acc)).2, x ∈ acc ∨ x ∈ ts) ∧
    (∀ x ∈ ts, x ∈ (l.foldl (resetStep u) (q, acc)).2) ∧
    (∀ e ∈ l, e.source = u → e.target ∈ (l.foldl (resetStep u) (q, acc)).2) := by
  induction l with
  | nil =>
    intro q acc
    refine ⟨[], by simp, by simp, by simp, by simp, ?_, by simp, by simp⟩
    intro x hx
    simp only [List.foldl_nil] at hx
    exact Or.inl hx
  | cons e l ih =>
    intro q acc
    have he : e ∈ es := hl e (by simp)
    have hlt : ∀ x ∈ l, x ∈ es := fun x hx => hl x (by simp [hx])
    simp only [List.foldl_cons]
    by_cases hc : e.source = u
    · have hstep : resetStep u (q, acc) e =
          (q ++ [e.target],
           if acc.contains e.target then acc else acc ++ [e.target]) := by
        unfold resetStep; rw [if_pos hc]
      rw [hstep]
      obtain ⟨ts, h1, h2, h3, h4, h5, h6, h7⟩ :=
        ih hlt (q ++ [e.target]) (if acc.contains e.target then acc else acc ++ [e.target])
      have hacc2 : e.target ∈
          (if acc.contains e.target then acc else acc ++ [e.target]) := by
        by_cases hct : acc.contains e.target
        · rw [if_pos hct]; simpa using hct
        · rw [if_neg hct]; simp
      have haccsub : ∀ x ∈ acc, x ∈
          (if acc.contains e.target then acc else acc ++ [e.target]) := by
        intro x hx
        by_cases hct : acc.contains e.target
        · rw [if_pos hct]; exact hx
        · rw [if_neg hct]; exact List.mem_append_left _ hx
      refine ⟨e.target :: ts, ?_, ?_, ?_, ?_, ?_, ?_, ?_⟩
      · rw [h1]; simp
      · intro x hx
        rcases List.mem_cons.mp hx with rfl | hx'
        · exact ⟨e, he, hc, rfl⟩
        · exact h2 x hx'
      · simpa using Nat.succ_le_succ h3
      · intro x hx; exact h4 x (haccsub x hx)
      · intro x hx
        rcases h5 x hx with hx' | hx'
        · by_cases hct : acc.contains e.target
          · rw [if_pos hct] at hx'; exact Or.inl hx'
          · rw [if_neg hct] at hx'
            rcases List.mem_append.mp hx' with h | h
            · exact Or.inl h
            · exact Or.inr (by simpa using Or.inl (by simpa using h))
        · exact Or.inr (List.mem_cons_of_mem _ hx')
      · intro x hx
        rcases List.mem_cons.mp hx with rfl | hx'
        · exact h4 e.target hacc2
        · exact h6 x hx'
      · intro e' he' hsrc
        rcases List.mem_cons.mp he' with rfl | he''
        · exact h4 e'.target hacc2
        · exact h7 e' he'' hsrc
    · have hstep : resetStep u (q, acc) e = (q, acc) := by
        unfold resetStep; rw [if_neg hc]
      rw [hstep]
      obtain ⟨ts, h1, h2, h3, h4, h5, h6, h7⟩ := ih hlt q acc
      refine ⟨ts, h1, h2, Nat.le_succ_of_le h3, h4, h5, h6, ?_⟩
      intro e' he' hsrc
      rcases List.mem_cons.mp he' with rfl | he''
      · exact absurd hsrc hc
      · exact h7 e' he'' hsrc

/-- The removal set only grows along a successful run of the unchecked
walk. -/
theorem resetGo_acc_subset (es : List FlowEdge) : ∀ (fuel : Nat)
    (q acc res : List String), resetGo es fuel q acc = some res →
    ∀ x ∈ acc, x ∈ res := by
  intro fuel
  induction fuel with
  | zero =>
    intro q acc res h
    cases q with
    | nil => rw [resetGo] at h; injection h with h; subst h; exact fun x hx => hx
    | cons u rest => rw [resetGo] at h; cases h
  | succ f ih =>
    intro q acc res h
    cases q with
    | nil => rw [resetGo] at h; injection h with h; subst h; exact fun x hx => hx
    | cons u rest =>
      rw [resetGo] at h
      obtain ⟨ts, _, _, _, h4, _, _, _⟩ :=
        resetFold_shape u es es (fun e he => he) rest acc
      intro x hx
      exact ih _ _ _ h x (by simpa only [resetPush] using h4 x hx)

/-- Soundness of the unchecked walk: on a successful run seeded from a
queue of nodes that are `n` or strictly reachable from `n`, every collected
node is strictly reachable from `n`. -/
theorem resetGo_sound (es : List FlowEdge) (n : String) : ∀ (fuel : Nat)
    (q acc res : List String), resetGo es fuel q acc = some res →
    (∀ x ∈ q, x = n ∨ SReach es n x) → (∀ x ∈ acc, SReach es n x) →
    ∀ x ∈ res, SReach es n x := by
  intro fuel
  induction fuel with
  | zero =>
    intro q acc res h hq hacc
    cases q with
    | nil => rw [resetGo] at h; injection h with h; subst h; exact hacc
    | cons u rest => rw [resetGo] at h; cases h
  | succ f ih =>
    intro q acc res h hq hacc
    cases q with
    | nil => rw [resetGo] at h; injection h with h; subst h; exact hacc
    | cons u rest =>
      rw [resetGo] at h
      obtain ⟨ts, h1, h2, _, _, h5, h6, _⟩ :=
        resetFold_shape u es es (fun e he => he) rest acc
      have hts : ∀ x ∈ ts, SReach es n x := by
        intro x hx
        obtain ⟨e, he, hsrc, htgt⟩ := h2 x hx
        rcases hq u (by simp) with rfl | hu
        · exact htgt ▸ SReach.single e he hsrc rfl
        · exact htgt ▸ SReach.tail hu e he hsrc rfl
      refine ih _ _ _ h ?_ ?_
      · simp only [resetPush] at h1 ⊢
        rw [h1]
        intro x hx
        rcases List.mem_append.mp hx with hx' | hx'
        · exact hq x (by simp [hx'])
        · exact Or.inr (hts x hx')
      · simp only [resetPush]
        intro x hx
        rcases h5 x hx with hx' | hx'
        · exact hacc x hx'
        · exact hts x hx'

/-- Closure of the unchecked walk: on a successful run, the collected set
is closed under outgoing edges of `n` and of collected nodes. -/
theorem resetGo_closed (es : List FlowEdge) (n : String) : ∀ (fuel : Nat)
    (q acc res : List String), resetGo es fuel q acc = some res →
    (∀ x, (x = n ∨ x ∈ acc) → x ∈ q ∨ ∀ e ∈ es, e.source = x → e.target ∈ acc) →
    ∀ x, (x = n ∨ x ∈ res) → ∀ e ∈ es, e.source = x → e.target ∈ res := by
  intro fuel
  induction fuel with
  | zero =>
    intro q acc res h hinv
    cases q with
    | nil =>
      rw [resetGo] at h
      injection h with h
      subst h
      intro x hx e he hsrc
      rcases hinv x hx with hq | hcl
      · cases hq
      · exact hcl e he hsrc
    | cons u rest => rw [resetGo] at h; cases h
  | succ f ih =>
    intro q acc res h hinv
    cases q with
    | nil =>
      rw [resetGo] at h
      injection h with h
      subst h
      intro x hx e he hsrc
      rcases hinv x hx with hq | hcl
      · cases hq
      · exact hcl e he hsrc
    | cons u rest =>
      rw [resetGo] at h
      refine ih _ _ _ h ?_
      obtain ⟨ts, h1, _, _, h4, h5, h6, h7⟩ :=
        resetFold_shape u es es (fun e he => he) rest acc
      simp only [resetPush] at h1 h4 h5 h6 h7 ⊢
      rw [h1]
      intro x hx
      have hold : (x = n ∨ x ∈ acc) →
          x ∈ rest ++ ts ∨ ∀ e ∈ es, e.source = x → e.target ∈
            (List.foldl (resetStep u) (rest, acc) es).2 := by
        intro hx'
        rcases hinv x hx' with hq | hcl
        · rcases List.mem_cons.mp hq with rfl | hrest
          · exact Or.inr (fun e he hsrc => h7 e he hsrc)
          · exact Or.inl (List.mem_append_left _ hrest)
        · exact Or.inr (fun e he hsrc => h4 _ (hcl e he hsrc))
      rcases hx with rfl | hxacc
      · exact hold (Or.inl rfl)
      · rcases h5 x hxacc with hx' | hx'
        · exact hold (Or.inr hx')
        · exact Or.inl (List.mem_append_right _ hx')

/-- The set collected by `resetNode`'s walk (when its loop exits) is
exactly the set of strict descendants of the reset node, on every edge
list. -/
theorem mem_resetGo (es : List FlowEdge) (n : String) (fuel : Nat)
    (acc : List String) (h : resetGo es fuel [n] [] = some acc) (x : String) :
    x ∈ acc ↔ SReach es n x := by
  constructor
  · intro hx
    exact resetGo_sound es n fuel [n] [] acc h
      (fun y hy => Or.inl (by simpa using hy)) (fun y hy => absurd hy (by simp)) x hx
  · have hcl := resetGo_closed es n fuel [n] [] acc h ?_
    · intro hr
      induction hr with
      | single e he hsrc htgt => exact htgt ▸ hcl n (Or.inl rfl) e he hsrc
      | tail hr' e he hsrc htgt ih => exact htgt ▸ hcl _ (Or.inr ih) e he hsrc
    · rintro y (rfl | hy)
      · exact Or.inl (by simp)
      · cases hy

/-- Rank of a node: the number of nodes in `{v} ∪ descendants(v)`.  On an
acyclic edge set this strictly decreases along every edge, which makes the
unchecked walk well-founded. -/
def rankOf (es : List FlowEdge) (v : String) : Nat :=
  (bfsAux es [v] [v]).toFinset.card

/-- On an acyclic edge set the rank strictly decreases along edges. -/
theorem rankOf_lt (es : List FlowEdge) (hacyc : Acyclic es) (e : FlowEdge)
    (he : e ∈ es) : rankOf es e.target < rankOf es e.source := by
  apply Finset.card_lt_card
  have hsub : (bfsAux es [e.target] [e.target]).toFinset ⊆
      (bfsAux es [e.source] [e.source]).toFinset := by
    intro x hx
    rw [List.mem_toFinset, mem_bfsAux_delete] at hx
    rw [List.mem_toFinset, mem_bfsAux_delete]
    rcases hx with rfl | hx'
    · exact Or.inr (SReach.single e he rfl rfl)
    · exact Or.inr (SReach.head e he rfl rfl hx')
  refine (Finset.ssubset_iff_of_subset hsub).mpr ⟨e.source, ?_, ?_⟩
  · rw [List.mem_toFinset, mem_bfsAux_delete]; exact Or.inl rfl
  · rw [List.mem_toFinset, mem_bfsAux_delete]
    rintro (hst | hcyc)
    · exact hacyc e.source (SReach.single e he rfl (hst ▸ rfl))
    · exact hacyc e.source (SReach.head e he rfl rfl hcyc)

/-- Termination measure of the unchecked walk: sum over the queue of
`(edges + 1) ^ rank`. -/
def pathMeasure (es : List FlowEdge) (r : String → Nat) (q : List String) : Nat :=
  (q.map (fun v => (es.length + 1) ^ (r v))).sum

/-- The discovered targets of one pop weigh strictly less than the popped
node. -/
theorem pathMeasure_ts_lt (es : List FlowEdge) (r : String → Nat)
    (hr : ∀ e ∈ es, r e.target < r e.source) (u : String) (ts : List String)
    (hts : ∀ x ∈ ts, ∃ e ∈ es, e.source = u ∧ e.target = x)
    (hlen : ts.length ≤ es.length) :
    pathMeasure es r ts + 1 ≤ (es.length + 1) ^ (r u) := by
  cases hru : r u with
  | zero =>
    cases ts with
    | nil => simp [pathMeasure]
    | cons x ts' =>
      obtain ⟨e, he, hsrc, htgt⟩ := hts x (by simp)
      have := hr e he
      rw [hsrc, htgt, hru] at this
      omega
  | succ m =>
    have hbound : ∀ y ∈ ts.map (fun v => (es.length + 1) ^ (r v)),
        y ≤ (es.length + 1) ^ m := by
      intro y hy
      obtain ⟨x, hx, rfl⟩ := List.mem_map.mp hy
      obtain ⟨e, he, hsrc, htgt⟩ := hts x hx
      have hlt := hr e he
      rw [hsrc, htgt, hru] at hlt
      exact Nat.pow_le_pow_right (Nat.succ_le_succ (Nat.zero_le _)) (by omega)
    have hsum : (ts.map (fun v => (es.length + 1) ^ (r v))).sum ≤
        ts.length * (es.length + 1) ^ m := by
      have := List.sum_le_card_nsmul (ts.map (fun v => (es.length + 1) ^ (r v)))
        ((es.length + 1) ^ m) hbound
      simpa [smul_eq_mul] using this
    have h1 : (1 : Nat) ≤ (es.length + 1) ^ m :=
      Nat.one_le_pow _ _ (Nat.succ_pos _)
    have hmul : ts.length * (es.length + 1) ^ m ≤
        es.length * (es.length + 1) ^ m :=
      Nat.mul_le_mul_right _ hlen
    have hpow : (es.length + 1) ^ (m + 1) =
        es.length * (es.length + 1) ^ m + (es.length + 1) ^ m := by
      rw [pow_succ]; ring
    unfold pathMeasure
    omega

/-- With a strictly decreasing rank, the unchecked walk exits once the fuel
exceeds the queue measure. -/
theorem resetGo_isSome (es : List FlowEdge) (r : String → Nat)
    (hr : ∀ e ∈ es, r e.target < r e.source) : ∀ (fuel : Nat)
    (q acc : List String), pathMeasure es r q < fuel →
    (resetGo es fuel q acc).isSome = true := by
  intro fuel
  induction fuel with
  | zero => intro q acc h; omega
  | succ f ih =>
    intro q acc h
    cases q with
    | nil => rw [resetGo]; rfl
    | cons u rest =>
      rw [resetGo]
      apply ih
      obtain ⟨ts, h1, h2, h3, _, _, _, _⟩ :=
        resetFold_shape u es es (fun e he => he) rest acc
      simp only [resetPush] at h1 ⊢
      rw [h1]
      have hts := pathMeasure_ts_lt es r hr u ts h2 h3
      have hcons : pathMeasure es r (u :: rest) =
          (es.length + 1) ^ (r u) + pathMeasure es r rest := by
        simp [pathMeasure]
      have happ : pathMeasure es r (rest ++ ts) =
          pathMeasure es r rest + pathMeasure es r ts := by
        simp [pathMeasure]
      omega

/-! ## Spec-side comparison definitions and concrete fixtures -/

/-- The document-like attachments of a message path, in path order: the
domain both the source scan and the spec's de-duplication range over. -/
def docAtts (msgs : List ChatMessage) : List AttachmentData :=
  msgs.flatMap (fun m => (m.attachments.getD []).filter (fun att => isDocumentType att.type))

/-- One step of first-occurrence de-duplication by the concatenated
`name:type` key. -/
def keyStep (docs : List AttachmentData) (att : AttachmentData) :
    List AttachmentData :=
  if docs.any (fun doc => attKey doc == attKey att) then docs
  else docs ++ [att]

/-- First-occurrence de-duplication by the concatenated `name:type` key, as
a single fold over the flattened document list; the amended description of
the source's nested scan. -/
def keyFirst (l : List AttachmentData) : List AttachmentData :=
  l.foldl keyStep []

/-- Modelled from the spec's words, for refinement comparison: retain only
document-like attachments, de-duplicated by the `(name, type)` pair, keeping
the first occurrence. -/
def specInheritedDocuments (msgs : List ChatMessage) : List AttachmentData :=
  msgs.foldl (fun docs msg => (msg.attachments.getD []).foldl (fun docs att =>
    if isDocumentType att.type then
      if docs.any (fun doc => doc.name == att.name && doc.type == att.type) then docs
      else docs ++ [att]
    else docs) docs) []

/-- A chain state `root -> A -> B` with arbitrary ids and histories: the
three-node tree of the path-correctness properties. -/
def chainState (a b : String) (h1 h2 h3 : List ChatMessage) : ChatState :=
  { nodes :=
      [{ id := "root", type := "chatNode"
         data := { label := "Start your conversation", chatHistory := h1 }
         position := (250, 50) },
       { id := a, type := "chatNode"
         data := { label := "A", chatHistory := h2 }, position := (250, 300) },
       { id := b, type := "chatNode"
         data := { label := "B", chatHistory := h3 }, position := (250, 550) }]
    edges :=
      [{ id := "e1", source := "root", target := a },
       { id := "e2", source := a, target := b }]
    activeNodeId := some b
    activePathNodeIds := []
    activePathEdgeIds := [] }

/-- The store's initial state: the root node alone, active. -/
def W0 : ChatState :=
  { nodes := [ROOT_NODE], edges := [], activeNodeId := some "root"
    activePathNodeIds := ["root"], activePathEdgeIds := [] }

/-- A non-root node fixture. -/
def wNodeA : FlowNode :=
  { id := "a", type := "chatNode"
    data := { label := "A", chatHistory := [] }, position := (0, 0) }

/-- A two-node state `root -> a`. -/
def W1 : ChatState :=
  { nodes := [ROOT_NODE, wNodeA], edges := [{ id := "e1", source := "root", target := "a" }]
    activeNodeId := none, activePathNodeIds := [], activePathEdgeIds := [] }

/-- A model message carrying a recorded `modelId`. -/
def mModel1 : ChatMessage :=
  { role := Role.model, content := "hello", attachments := none, modelId := some "x" }

/-- A state with one non-root node whose history ends in `mModel1`. -/
def W6 : ChatState :=
  { nodes := [ROOT_NODE,
      { id := "n", type := "chatNode"
        data := { label := "N", chatHistory := [mModel1] }, position := (0, 0) }]
    edges := [], activeNodeId := none, activePathNodeIds := [], activePathEdgeIds := [] }

/-- A document-like attachment whose name contains the key separator. -/
def att1 : AttachmentData :=
  { name := "a:text/x", type := "text/y", data := "d1", previewUrl := "p1" }

/-- A document-like attachment with a different `(name, type)` pair but the
same concatenated `name:type` key as `att1`. -/
def att2 : AttachmentData :=
  { name := "a", type := "text/x:text/y", data := "d2", previewUrl := "p2" }

/-- A message attaching both colliding attachments. -/
def m8 : ChatMessage :=
  { role := Role.user, content := "docs", attachments := some [att1, att2], modelId := none }

/-- A trivial session snapshot. -/
def emptySession : SessionData :=
  { nodes := [], edges := [], activeNodeId := none, timestamp := 0, version := "1.0.0" }

/-- A serialization stub whose output always exceeds the size ceiling. -/
def bigStringify : SessionData → String :=
  fun _ => String.mk (List.replicate 4718593 'a')

/-! ## Claim theorems -/

/-- The root re-insertion step at the end of `onNodesChange` guarantees a
node with id `root` whatever the applied changes produced. -/
theorem exists_root_after_restore (l : List FlowNode) :
    ∃ n ∈ (if l.any (fun n => n.id == "root") then l else l ++ [ROOT_NODE]),
      n.id = "root" := by
  by_cases h : l.any (fun n => n.id == "root") = true
  · rw [if_pos h]
    obtain ⟨n, hn, hid⟩ := List.any_eq_true.mp h
    exact ⟨n, hn, by simpa using hid⟩
  · rw [if_neg h]
    exact ⟨ROOT_NODE, by simp, rfl⟩

/-- C1: for every batch of node changes (in particular any batch containing
a remove change with id `root`), the resulting node set still contains a
node with id `root`; and `deleteNodeAndDescendants` applied to `root` is a
no-op that leaves the entire state unchanged. -/
theorem C1_root_protection :
    (∀ (s : ChatState) (changes : List NodeChange),
      ∃ n ∈ (onNodesChange s changes).nodes, n.id = "root") ∧
    (∀ s : ChatState, deleteNodeAndDescendants s "root" = s) := by
  constructor
  · intro s changes
    exact exists_root_after_restore _
  · intro s
    simp [deleteNodeAndDescendants]

/-- The empty edge list admits no strict reachability. -/
theorem not_SReach_nil (x y : String) : ¬ SReach [] x y := by
  intro h
  induction h with
  | single e he hs ht => exact absurd he (List.not_mem_nil e)
  | tail h e he hs ht ih => exact absurd he (List.not_mem_nil e)

/-- The empty edge list is acyclic. -/
theorem Acyclic_nil : Acyclic ([] : List FlowEdge) :=
  fun v h => not_SReach_nil v v h

/-- C10: on every state whose edge set is acyclic, `resetNode` terminates
for every node id: some fuel makes its unchecked descendant-collection loop
exit. -/
theorem C10_resetNode_terminates (s : ChatState) (nodeId : String)
    (hacyc : Acyclic s.edges) :
    ∃ fuel : Nat, (resetNode s nodeId fuel).isSome = true := by
  have hr : ∀ e ∈ s.edges, rankOf s.edges e.target < rankOf s.edges e.source :=
    fun e he => rankOf_lt s.edges hacyc e he
  refine ⟨pathMeasure s.edges (rankOf s.edges) [nodeId] + 1, ?_⟩
  have hgo := resetGo_isSome s.edges (rankOf s.edges) hr
    (pathMeasure s.edges (rankOf s.edges) [nodeId] + 1) [nodeId] [] (by omega)
  unfold resetNode
  cases hg : resetGo s.edges (pathMeasure s.edges (rankOf s.edges) [nodeId] + 1)
      [nodeId] [] with
  | none => rw [hg] at hgo; simp at hgo
  | some acc => rfl

/-- Witness for C10 at a concrete acyclic state. -/
theorem C10_resetNode_terminates_witness :
    Acyclic W0.edges ∧ ∃ fuel : Nat, (resetNode W0 "root" fuel).isSome = true := by
  have ha : Acyclic W0.edges := Acyclic_nil
  exact ⟨ha, C10_resetNode_terminates W0 "root" ha⟩

/-- Boolean bridge: the negated `contains` filter accepts exactly the
non-members. -/
theorem not_contains_eq (R : List String) (x : String) :
    (!(R.contains x)) = true ↔ x ∉ R := by simp

/-- Counterexample to C2 as stated: `N = root` is a node of the well-formed
two-node tree `W1` with strict descendant `a`, yet `deleteNodeAndDescendants`
at `root` changes nothing: both `root` and its descendant survive. -/
theorem C2_counterexample :
    deleteNodeAndDescendants W1 "root" = W1 ∧
    SReach W1.edges "root" "a" ∧
    wNodeA ∈ (deleteNodeAndDescendants W1 "root").nodes ∧ wNodeA.id = "a" := by
  refine ⟨by decide, ?_, by decide, by decide⟩
  exact SReach.single { id := "e1", source := "root", target := "a" }
    (by simp [W1]) rfl rfl

/-- C2 (amended): for every non-root node id, `deleteNodeAndDescendants`
removes exactly the node and its strict descendants (no unrelated node) and
exactly the edges incident to a removed node; and on an acyclic state a
terminating `resetNode` removes exactly the strict descendants and their
incident edges while keeping the node itself with cleared history and the
default placeholder label. -/
theorem C2_cascade_exactness :
    (∀ (s : ChatState) (nodeId : String), nodeId ≠ "root" →
      (∀ n : FlowNode, n ∈ (deleteNodeAndDescendants s nodeId).nodes ↔
        n ∈ s.nodes ∧ ¬(n.id = nodeId ∨ SReach s.edges nodeId n.id)) ∧
      (∀ e : FlowEdge, e ∈ (deleteNodeAndDescendants s nodeId).edges ↔
        e ∈ s.edges ∧ ¬(e.source = nodeId ∨ SReach s.edges nodeId e.source) ∧
          ¬(e.target = nodeId ∨ SReach s.edges nodeId e.target))) ∧
    (∀ (s : ChatState) (nodeId : String) (fuel : Nat) (s' : ChatState),
      Acyclic s.edges → resetNode s nodeId fuel = some s' →
      (∀ n : FlowNode, n ∈ s'.nodes ↔
        ∃ m ∈ s.nodes, ¬ SReach s.edges nodeId m.id ∧
          n = (if m.id = nodeId then
                 { m with data := { m.data with chatHistory := [], label := "New Chat" } }
               else m)) ∧
      (∀ m ∈ s.nodes, m.id = nodeId →
        ({ m with data := { m.data with chatHistory := [], label := "New Chat" } } : FlowNode)
          ∈ s'.nodes) ∧
      (∀ e : FlowEdge, e ∈ s'.edges ↔
        e ∈ s.edges ∧ ¬ SReach s.edges nodeId e.target ∧ ¬ SReach s.edges nodeId e.source)) := by
  constructor
  · intro s nodeId hne
    have hmem := mem_bfsAux_delete s.edges nodeId
    constructor
    · intro n
      simp only [deleteNodeAndDescendants, if_neg hne, List.mem_filter, not_contains_eq]
      rw [hmem n.id]
    · intro e
      simp only [deleteNodeAndDescendants, if_neg hne, List.mem_filter,
        Bool.and_eq_true, not_contains_eq]
      rw [hmem e.source, hmem e.target]
  · intro s nodeId fuel s' hacyc hres
    unfold resetNode at hres
    cases hgo : resetGo s.edges fuel [nodeId] [] with
    | none => rw [hgo] at hres; cases hres
    | some acc =>
      rw [hgo] at hres
      injection hres with hres
      subst hres
      have hm : ∀ x, x ∈ acc ↔ SReach s.edges nodeId x :=
        mem_resetGo s.edges nodeId fuel acc hgo
      have hid : ∀ m : FlowNode,
          ((if m.id = nodeId then
              { m with data := { m.data with chatHistory := [], label := "New Chat" } }
            else m) : FlowNode).id = m.id := by
        intro m; by_cases h : m.id = nodeId <;> simp [h]
      refine ⟨?_, ?_, ?_⟩
      · intro n
        constructor
        · intro hn
          simp only [List.mem_filter, List.mem_map] at hn
          obtain ⟨⟨m, hmem2, hfm⟩, hg⟩ := hn
          subst hfm
          rw [not_contains_eq, hid] at hg
          exact ⟨m, hmem2, fun hr => hg ((hm m.id).mpr hr), rfl⟩
        · rintro ⟨m, hmem2, hnr, rfl⟩
          simp only [List.mem_filter, List.mem_map]
          refine ⟨⟨m, hmem2, rfl⟩, ?_⟩
          rw [not_contains_eq, hid]
          exact fun hc => hnr ((hm m.id).mp hc)
      · intro m hmem2 hmid
        have hnot : nodeId ∉ acc := fun hc => hacyc nodeId ((hm nodeId).mp hc)
        simp only [List.mem_filter, List.mem_map]
        refine ⟨⟨m, hmem2, by rw [if_pos hmid]⟩, ?_⟩
        rw [not_contains_eq]
        simpa [hmid] using hnot
      · intro e
        constructor
        · intro he
          rw [List.mem_filter] at he
          obtain ⟨he1, he2⟩ := he
          rw [Bool.and_eq_true, not_contains_eq, not_contains_eq] at he2
          exact ⟨he1, fun hr => he2.1 ((hm _).mpr hr), fun hr => he2.2 ((hm _).mpr hr)⟩
        · rintro ⟨he1, ht, hs2⟩
          rw [List.mem_filter]
          refine ⟨he1, ?_⟩
          rw [Bool.and_eq_true, not_contains_eq, not_contains_eq]
          exact ⟨fun hc => ht ((hm _).mp hc), fun hc => hs2 ((hm _).mp hc)⟩

/-- The concrete edges of `chainState "a" "b"`. -/
def chainEdges : List FlowEdge :=
  [{ id := "e1", source := "root", target := "a" },
   { id := "e2", source := "a", target := "b" }]

/-- Characterization of strict reachability on the concrete chain. -/
theorem chain_SReach (x y : String) (h : SReach chainEdges x y) :
    (x = "root" ∧ y = "a") ∨ (x = "root" ∧ y = "b") ∨ (x = "a" ∧ y = "b") := by
  induction h with
  | single e he hs ht =>
    rcases List.mem_cons.mp he with rfl | he'
    · exact Or.inl ⟨hs.symm, ht.symm⟩
    · rcases List.mem_cons.mp he' with rfl | he''
      · exact Or.inr (Or.inr ⟨hs.symm, ht.symm⟩)
      · cases he''
  | tail h e he hs ht ih =>
    rcases List.mem_cons.mp he with rfl | he'
    · rcases ih with ⟨hx, hb⟩ | ⟨hx, hb⟩ | ⟨hx, hb⟩ <;>
        exact absurd (hs.trans hb) (by decide)
    · rcases List.mem_cons.mp he' with rfl | he''
      · rcases ih with ⟨hx, hb⟩ | ⟨hx, hb⟩ | ⟨hx, hb⟩
        · exact Or.inr (Or.inl ⟨hx, ht.symm⟩)
        · exact absurd (hs.trans hb) (by decide)
        · exact absurd (hs.trans hb) (by decide)
      · cases he''

/-- The concrete chain is acyclic. -/
theorem Acyclic_chain : Acyclic chainEdges := by
  intro v h
  rcases chain_SReach v v h with ⟨h1, h2⟩ | ⟨h1, h2⟩ | ⟨h1, h2⟩ <;>
    rw [h1] at h2 <;> exact absurd h2 (by decide)

/-- The state produced by `resetNode (chainState "a" "b" [] [] []) "a" 3`. -/
def WReset : ChatState :=
  { nodes :=
      [{ id := "root", type := "chatNode"
         data := { label := "Start your conversation", chatHistory := [] }
         position := (250, 50) },
       { id := "a", type := "chatNode"
         data := { label := "New Chat", chatHistory := [] }, position := (250, 300) }]
    edges := [{ id := "e1", source := "root", target := "a" }]
    activeNodeId := some "b"
    activePathNodeIds := []
    activePathEdgeIds := [] }

/-- Witness for C2 at concrete states: a deletion instance on `W1` and a
reset instance on the chain. -/
theorem C2_cascade_exactness_witness :
    (("a" : String) ≠ "root" ∧ Acyclic (chainState "a" "b" [] [] []).edges ∧
     resetNode (chainState "a" "b" [] [] []) "a" 3 = some WReset) ∧
    (wNodeA ∈ (deleteNodeAndDescendants W1 "a").nodes ↔
      wNodeA ∈ W1.nodes ∧ ¬(wNodeA.id = "a" ∨ SReach W1.edges "a" wNodeA.id)) ∧
    (({ id := "e1", source := "root", target := "a" } : FlowEdge) ∈ WReset.edges ↔
      ({ id := "e1", source := "root", target := "a" } : FlowEdge)
          ∈ (chainState "a" "b" [] [] []).edges ∧
        ¬ SReach (chainState "a" "b" [] [] []).edges "a" "a" ∧
        ¬ SReach (chainState "a" "b" [] [] []).edges "a" "root") := by
  have hne : ("a" : String) ≠ "root" := by decide
  have hac : Acyclic (chainState "a" "b" [] [] []).edges := Acyclic_chain
  have hrs : resetNode (chainState "a" "b" [] [] []) "a" 3 = some WReset := by decide
  exact ⟨⟨hne, hac, hrs⟩,
    (C2_cascade_exactness.1 W1 "a" (by decide)).1 wNodeA,
    (C2_cascade_exactness.2 (chainState "a" "b" [] [] []) "a" 3 WReset hac hrs).2.2
      { id := "e1", source := "root", target := "a" }⟩

/-- Path walk on the chain: the node ids from the root to `b`, in order. -/
theorem chain_pathNodeIds (a b : String) (h1 h2 h3 : List ChatMessage)
    (hra : a ≠ "root") (hrb : b ≠ "root") (hab : b ≠ a) (ha0 : a ≠ "")
    (hb0 : b ≠ "") :
    getPathNodeIds (chainState a b h1 h2 h3) b = some ["root", a, b] := by
  have hba : (b == a) = false := beq_eq_false_iff_ne.mpr hab
  have haroot : (a == "root") = false := beq_eq_false_iff_ne.mpr hra
  have hbroot : (b == "root") = false := beq_eq_false_iff_ne.mpr hrb
  have hincb : incomingOf (chainState a b h1 h2 h3).edges b = some a := by
    simp [incomingOf, chainState]
  have hinca : incomingOf (chainState a b h1 h2 h3).edges a = some "root" := by
    simp [incomingOf, chainState, hba]
  have hincr : incomingOf (chainState a b h1 h2 h3).edges "root" = none := by
    simp [incomingOf, chainState, hbroot, haroot]
  have hlen : (chainState a b h1 h2 h3).edges.length + 1 = 2 + 1 := by
    simp [chainState]
  unfold getPathNodeIds
  rw [if_neg hb0, hlen, walkUp]
  simp only [hincb]
  rw [if_neg ha0, show (2 : Nat) = 1 + 1 from rfl, walkUp]
  simp only [hinca]
  rw [if_neg (show ("root" : String) ≠ "" by decide),
    show (1 : Nat) = 0 + 1 from rfl, walkUp]
  simp only [hincr]

/-- C3: on every chain state `root -> A -> B` (distinct, truthy ids), the
path resolver returns exactly `[root, A, B]` and the two connecting edge
ids in root-to-target order. -/
theorem C3_path_correctness (a b : String) (h1 h2 h3 : List ChatMessage)
    (hra : a ≠ "root") (hrb : b ≠ "root") (hab : b ≠ a) (ha0 : a ≠ "")
    (hb0 : b ≠ "") :
    getPathNodeIds (chainState a b h1 h2 h3) b = some ["root", a, b] ∧
    getPathEdgeIds (chainState a b h1 h2 h3) b = some ["e1", "e2"] := by
  refine ⟨chain_pathNodeIds a b h1 h2 h3 hra hrb hab ha0 hb0, ?_⟩
  have hroota : (("root" : String) == a) = false :=
    beq_eq_false_iff_ne.mpr (fun h => hra h.symm)
  unfold getPathEdgeIds
  rw [chain_pathNodeIds a b h1 h2 h3 hra hrb hab ha0 hb0]
  simp [pathEdgesOf, chainState, hroota]

/-- The path messages of an all-present-attachments, untagged message are
rebuilt unchanged. -/
theorem normalizeMsg_eq_self (m : ChatMessage) (ha : m.attachments.isSome = true)
    (hm : m.modelId = none) : normalizeMsg m = m := by
  cases m with
  | mk r c att mid =>
    cases att with
    | none => simp at ha
    | some l =>
      simp only at hm
      subst hm
      simp [normalizeMsg]

/-- C4: on every chain state `root -> A -> B`, the conversation path to `B`
is the concatenation of the three histories in ancestor order, each message
rebuilt with its role, content and attachments (absent attachment lists
become empty, the model tag is dropped); when every message carries an
attachment list and no model tag the result is literally `h1 ++ h2 ++ h3`
— in particular `[m1], [m2, m3], [m4]` yields `[m1, m2, m3, m4]`. -/
theorem C4_path_messages (a b : String) (h1 h2 h3 : List ChatMessage)
    (hra : a ≠ "root") (hrb : b ≠ "root") (hab : b ≠ a) (ha0 : a ≠ "")
    (hb0 : b ≠ "") :
    getPathToNode (chainState a b h1 h2 h3) b =
      some ((h1 ++ h2 ++ h3).map normalizeMsg) ∧
    ((∀ m ∈ h1 ++ h2 ++ h3, m.attachments.isSome = true ∧ m.modelId = none) →
      getPathToNode (chainState a b h1 h2 h3) b = some (h1 ++ h2 ++ h3)) := by
  have hroota : (("root" : String) == a) = false :=
    beq_eq_false_iff_ne.mpr (fun h => hra h.symm)
  have hrootb : (("root" : String) == b) = false :=
    beq_eq_false_iff_ne.mpr (fun h => hrb h.symm)
  have hab' : ((a : String) == b) = false :=
    beq_eq_false_iff_ne.mpr (fun h => hab h.symm)
  have hmain : getPathToNode (chainState a b h1 h2 h3) b =
      some ((h1 ++ h2 ++ h3).map normalizeMsg) := by
    unfold getPathToNode
    rw [chain_pathNodeIds a b h1 h2 h3 hra hrb hab ha0 hb0]
    simp [chainState, hroota, hrootb, hab']
  refine ⟨hmain, fun hmsg => ?_⟩
  rw [hmain]
  have : (h1 ++ h2 ++ h3).map normalizeMsg = h1 ++ h2 ++ h3 := by
    have hcongr : ∀ m ∈ h1 ++ h2 ++ h3, normalizeMsg m = m := fun m hm =>
      normalizeMsg_eq_self m (hmsg m hm).1 (hmsg m hm).2
    calc (h1 ++ h2 ++ h3).map normalizeMsg
        = (h1 ++ h2 ++ h3).map id := List.map_congr_left hcongr
      _ = h1 ++ h2 ++ h3 := List.map_id _
  rw [this]

/-- Witness for C3 at concrete ids. -/
theorem C3_path_correctness_witness :
    getPathNodeIds (chainState "a" "b" [] [] []) "b" = some ["root", "a", "b"] ∧
    getPathEdgeIds (chainState "a" "b" [] [] []) "b" = some ["e1", "e2"] :=
  C3_path_correctness "a" "b" [] [] [] (by decide) (by decide) (by decide)
    (by decide) (by decide)

/-- A message with an (empty) attachment list and no model tag. -/
def mAtt (r : Role) (c : String) : ChatMessage :=
  { role := r, content := c, attachments := some [], modelId := none }

/-- Witness for C4 on the chain holding `[m1], [m2, m3], [m4]`. -/
theorem C4_path_messages_witness :
    getPathToNode (chainState "a" "b" [mAtt Role.user "1"]
      [mAtt Role.model "2", mAtt Role.user "3"] [mAtt Role.model "4"]) "b" =
      some [mAtt Role.user "1", mAtt Role.model "2", mAtt Role.user "3",
        mAtt Role.model "4"] :=
  (C4_path_messages "a" "b" [mAtt Role.user "1"]
    [mAtt Role.model "2", mAtt Role.user "3"] [mAtt Role.model "4"]
    (by decide) (by decide) (by decide) (by decide) (by decide)).2 (by decide)

/-- An index-aware map that never changes an in-range element is the
identity. -/
theorem mapIdx_eq_self {α : Type} (g : Nat → α → α) (l : List α)
    (h : ∀ i a, i < l.length → g i a = a) : l.mapIdx g = l := by
  induction l using List.reverseRecOn with
  | nil => simp
  | append_singleton l x ih =>
    rw [List.mapIdx_append_one, h l.length x (by simp),
      ih (fun i a hi => h i a (by simp; omega))]

/-- Replacing the entry at the last index of `l ++ [x]` rewrites exactly
`x`. -/
theorem mapIdx_set_last {α : Type} (f : α → α) (l : List α) (x : α) :
    (l ++ [x]).mapIdx (fun i m => if i = (l ++ [x]).length - 1 then f m else m) =
      l ++ [f x] := by
  rw [List.mapIdx_append_one]
  simp only [List.length_append, List.length_cons, List.length_nil, Nat.add_sub_cancel]
  rw [if_pos trivial, mapIdx_eq_self _ l (fun i a hi => if_neg (by omega))]

/-- C5: with `isPartial` true and a last message of the incoming role,
`addMessageToNode` rewrites the last message's content in place — history
length unchanged and every other field of the last message (in particular
its attachments) preserved; in every other case (not partial, empty
history, or different role) the message is appended, growing the history by
exactly one.  The state-level operation applies this to exactly the nodes
with the given id and leaves the edges alone. -/
theorem C5_streaming_replace :
    (∀ (h : List ChatMessage) (message lastMessage : ChatMessage),
      h.getLast? = some lastMessage → lastMessage.role = message.role →
      addMsgToHistory h message true =
        h.dropLast ++ [{ lastMessage with content := message.content }] ∧
      (addMsgToHistory h message true).length = h.length ∧
      (addMsgToHistory h message true).getLast? =
        some { lastMessage with content := message.content }) ∧
    (∀ (h : List ChatMessage) (message : ChatMessage) (isPartial : Bool),
      (isPartial = false ∨ h = [] ∨
        (∀ lastMessage, h.getLast? = some lastMessage →
          lastMessage.role ≠ message.role)) →
      addMsgToHistory h message isPartial = h ++ [message] ∧
      (addMsgToHistory h message isPartial).length = h.length + 1) ∧
    (∀ (s : ChatState) (nodeId : String) (message : ChatMessage) (isPartial : Bool),
      (addMessageToNode s nodeId message isPartial).nodes =
        s.nodes.map (fun node =>
          if node.id = nodeId then
            { node with data := { node.data with
                chatHistory := addMsgToHistory node.data.chatHistory message isPartial } }
          else node) ∧
      (addMessageToNode s nodeId message isPartial).edges = s.edges) := by
  refine ⟨?_, ?_, fun s nodeId message isPartial => ⟨rfl, rfl⟩⟩
  · intro h message lastMessage hlast hrole
    obtain ⟨l, rfl⟩ := List.getLast?_eq_some_iff.mp hlast
    have hbeq : (lastMessage.role == message.role) = true := beq_iff_eq.mpr hrole
    have heq : addMsgToHistory (l ++ [lastMessage]) message true =
        l ++ [{ lastMessage with content := message.content }] := by
      unfold addMsgToHistory
      simp only [List.getLast?_concat, hbeq, Bool.true_and, if_true]
      exact mapIdx_set_last _ l lastMessage
    refine ⟨?_, ?_, ?_⟩
    · rw [heq, List.dropLast_concat]
    · rw [heq]; simp
    · rw [heq, List.getLast?_concat]
  · intro h message isPartial hcase
    have hcond : (isPartial && (match h.getLast? with
        | some lastMessage => lastMessage.role == message.role
        | none => false)) = false := by
      rcases hcase with rfl | rfl | hne
      · simp
      · simp
      · cases hl : h.getLast? with
        | none => simp
        | some lst =>
          have hb : (lst.role == message.role) = false :=
            beq_eq_false_iff_ne.mpr (hne lst hl)
          simp [hb]
    unfold addMsgToHistory
    simp only [hcond, Bool.false_eq_true, if_false]
    simp

/-- Witness for C5: a partial same-role append replaces in place; a
non-partial append grows the history. -/
theorem C5_streaming_replace_witness :
    addMsgToHistory [mModel1]
      { role := Role.model, content := "upd", attachments := none, modelId := none }
      true = [{ mModel1 with content := "upd" }] ∧
    addMsgToHistory [mModel1] (mAtt Role.user "q") false =
      [mModel1, mAtt Role.user "q"] :=
  ⟨(C5_streaming_replace.1 [mModel1]
      { role := Role.model, content := "upd", attachments := none, modelId := none }
      mModel1 rfl rfl).1,
   (C5_streaming_replace.2.1 [mModel1] (mAtt Role.user "q") false (Or.inl rfl)).1⟩

/-- The amended per-node description of `updateLastMessageInNode`: the last
message's content is rewritten exactly when the node matches, the last
message's role is `model`, and the `modelId` argument is absent, the empty
string, or equal to the recorded tag; everything else about the node (and
every other message) is untouched. -/
def updateLastSpec (node : FlowNode) (nodeId content : String)
    (modelId : Option String) : FlowNode :=
  match node.data.chatHistory.getLast? with
  | some lastMessage =>
    if node.id = nodeId ∧ lastMessage.role = Role.model ∧
        (modelId = none ∨ modelId = some "" ∨ lastMessage.modelId = modelId) then
      { node with data := { node.data with chatHistory :=
          node.data.chatHistory.dropLast ++ [{ lastMessage with content := content }] } }
    else node
  | none => node

/-- The result of the `C6` counterexample call. -/
def W6upd : ChatState :=
  { nodes := [ROOT_NODE,
      { id := "n", type := "chatNode"
        data := { label := "N", chatHistory := [{ mModel1 with content := "new" }] }
        position := (0, 0) }]
    edges := [], activeNodeId := none, activePathNodeIds := [], activePathEdgeIds := [] }

/-- Counterexample to C6 as stated: with the empty-string `modelId`
argument — an argument that was given and does not equal the recorded
`modelId` of the last message — the content is still replaced, because the
source's guard `!modelId` also accepts the falsy empty string. -/
theorem C6_counterexample :
    updateLastMessageInNode W6 "n" "new" (some "") = W6upd ∧
    (some "" : Option String) ≠ none ∧
    mModel1.modelId ≠ some "" ∧
    W6upd ≠ W6 := by
  refine ⟨by decide, by decide, by decide, by decide⟩

/-- C6 (amended): `updateLastMessageInNode` maps every node through
`updateLastSpec`: the content of the last message is replaced if and only
if the node id matches, the history is non-empty with a `model`-role last
message, and the `modelId` argument is absent, empty, or equals the
recorded one; in all other cases the node is unchanged, and only the last
message's content is ever modified.  Edges and the active path are never
touched. -/
theorem C6_replace_last_guard :
    ∀ (s : ChatState) (nodeId content : String) (modelId : Option String),
      (updateLastMessageInNode s nodeId content modelId).edges = s.edges ∧
      (updateLastMessageInNode s nodeId content modelId).activeNodeId = s.activeNodeId ∧
      (updateLastMessageInNode s nodeId content modelId).activePathNodeIds =
        s.activePathNodeIds ∧
      (updateLastMessageInNode s nodeId content modelId).nodes =
        s.nodes.map (fun node => updateLastSpec node nodeId content modelId) := by
  intro s nodeId content modelId
  refine ⟨rfl, rfl, rfl, ?_⟩
  unfold updateLastMessageInNode
  apply List.map_congr_left
  intro node _
  cases hh : node.data.chatHistory.getLast? with
  | none =>
    have hnil : node.data.chatHistory = [] := by
      cases hl : node.data.chatHistory with
      | nil => rfl
      | cons m rest => rw [hl] at hh; simp [List.getLast?_concat] at hh
    have hcond : ¬(node.id = nodeId ∧ 0 < node.data.chatHistory.length) := by
      rintro ⟨_, hpos⟩
      rw [hnil] at hpos
      simp at hpos
    rw [if_neg hcond]
    simp only [updateLastSpec, hh]
  | some lastMessage =>
    have hpos : 0 < node.data.chatHistory.length := by
      cases hl : node.data.chatHistory with
      | nil => rw [hl] at hh; simp at hh
      | cons m rest => simp [hl]
    simp only [updateLastSpec, hh]
    by_cases hid : node.id = nodeId
    · rw [if_pos (And.intro hid hpos)]
      by_cases hguard : lastMessage.role = Role.model ∧
          (jsFalsy modelId ∨ lastMessage.modelId = modelId)
      · rw [if_pos hguard, if_pos]
        refine ⟨hid, hguard.1, ?_⟩
        rcases hguard.2 with hf | hmatch
        · rcases hf with hf | hf
          · exact Or.inl hf
          · exact Or.inr (Or.inl hf)
        · exact Or.inr (Or.inr hmatch)
      · rw [if_neg hguard, if_neg]
        rintro ⟨_, hrole, hor⟩
        apply hguard
        refine ⟨hrole, ?_⟩
        rcases hor with hf | hf | hmatch
        · exact Or.inl (Or.inl hf)
        · exact Or.inl (Or.inr hf)
        · exact Or.inr hmatch
    · rw [if_neg (fun hc => hid hc.1), if_neg (fun hc => hid hc.1)]

/-- C7: parametrized over the external serialization, `saveSessionData`
writes the full serialized snapshot when it fits; when it exceeds the
ceiling it builds the compacted variant — in which every kept message
content is at most 10000 characters plus the truncation marker (so every
content longer than 10000 characters was truncated) and every attachment of
100000 or more data characters (in particular every one exceeding 100000)
was dropped — writes exactly that variant when it fits, and otherwise fails
leaving the stored slot untouched.  The slot only ever holds a complete
serialization, never a partial one. -/
theorem C7_oversized_save :
    ∀ (stringify : SessionData → String) (slot : Option String) (data : SessionData),
      ((stringify data).length ≤ SESSION_SIZE_LIMIT →
        saveSessionData stringify slot data = (true, some (stringify data))) ∧
      (SESSION_SIZE_LIMIT < (stringify data).length →
        (∀ node ∈ (compressSessionData data).nodes, ∀ msg ∈ node.data.chatHistory,
          msg.content.length ≤ 10014 ∧
          ∀ att ∈ msg.attachments.getD [], att.data.length < 100000) ∧
        (SESSION_SIZE_LIMIT < (stringify (compressSessionData data)).length →
          saveSessionData stringify slot data = (false, slot)) ∧
        ((stringify (compressSessionData data)).length ≤ SESSION_SIZE_LIMIT →
          saveSessionData stringify slot data =
            (true, some (stringify (compressSessionData data))))) := by
  intro stringify slot data
  constructor
  · intro hle
    unfold saveSessionData
    rw [if_neg (by omega : ¬ SESSION_SIZE_LIMIT < (stringify data).length)]
  · intro hgt
    refine ⟨?_, ?_, ?_⟩
    · intro node hn msg hm
      simp only [compressSessionData, List.mem_map] at hn
      obtain ⟨n0, _, rfl⟩ := hn
      simp only [List.mem_map] at hm
      obtain ⟨m0, _, rfl⟩ := hm
      constructor
      · show (if 10000 < m0.content.length
            then strTake m0.content 10000 ++ "...[truncated]"
            else m0.content).length ≤ 10014
        by_cases hc : 10000 < m0.content.length
        · rw [if_pos hc, String.length_append]
          have h1 : (strTake m0.content 10000).length ≤ 10000 := by
            show (m0.content.data.take 10000).length ≤ 10000
            simp
          have h2 : ("...[truncated]" : String).length = 14 := by decide
          omega
        · rw [if_neg hc]; omega
      · intro att hatt
        have : att ∈ (m0.attachments.getD []).filter
            (fun att => att.data.length < 100000) := hatt
        rw [List.mem_filter] at this
        simpa using this.2
    · intro hgt2
      unfold saveSessionData
      rw [if_pos hgt, if_pos hgt2]
    · intro hle2
      unfold saveSessionData
      rw [if_pos hgt,
        if_neg (by omega : ¬ SESSION_SIZE_LIMIT < (stringify (compressSessionData data)).length)]

/-- Witness for C7: a serialization that always exceeds the ceiling makes
the save fail and leaves the (empty) slot untouched. -/
theorem C7_oversized_save_witness :
    SESSION_SIZE_LIMIT < (bigStringify emptySession).length ∧
    saveSessionData bigStringify none emptySession = (false, none) := by
  have hbig : ∀ d : SessionData, SESSION_SIZE_LIMIT < (bigStringify d).length := by
    intro d
    show SESSION_SIZE_LIMIT < (String.mk (List.replicate 4718593 'a')).length
    rw [show ∀ l : List Char, (String.mk l).length = l.length from fun l => rfl,
      List.length_replicate]
    decide
  exact ⟨hbig emptySession,
    ((C7_oversized_save bigStringify none emptySession).2 (hbig emptySession)).2.1
      (hbig (compressSessionData emptySession))⟩

/-- Counterexample to C8 as stated: two document-like attachments with
distinct `(name, type)` pairs whose `name:type` concatenations coincide;
the source keeps only the first, while pair-wise de-duplication (the spec's
words, `specInheritedDocuments`) keeps both. -/
theorem C8_counterexample :
    inheritedDocuments [m8] = [att1] ∧
    specInheritedDocuments [m8] = [att1, att2] ∧
    att1.name ≠ att2.name ∧
    isDocumentType att1.type = true ∧ isDocumentType att2.type = true := by
  refine ⟨by decide, by decide, by decide, by decide, by decide⟩

/-- The inner attachment fold keeps only document-like attachments and
otherwise behaves as key de-duplication. -/
theorem inheritedFold_filter (l : List AttachmentData) :
    ∀ acc : List AttachmentData,
      l.foldl inheritedStep acc =
        (l.filter (fun a => isDocumentType a.type)).foldl keyStep acc := by
  induction l with
  | nil => intro acc; rfl
  | cons a l ih =>
    intro acc
    by_cases hd : isDocumentType a.type = true
    · rw [List.foldl_cons]
      simp only [List.filter_cons, hd, if_true]
      rw [List.foldl_cons, ih]
      congr 1
      unfold inheritedStep keyStep
      rw [if_pos hd]
    · have hd' : isDocumentType a.type = false := by simpa using hd
      rw [List.foldl_cons]
      simp only [List.filter_cons, hd', Bool.false_eq_true, if_false]
      rw [ih]
      congr 1
      unfold inheritedStep
      rw [if_neg hd]

/-- The nested scan of `inheritedDocuments` equals key de-duplication of
the flattened document-like attachments. -/
theorem inheritedDocuments_fusion : ∀ (msgs : List ChatMessage)
    (acc : List AttachmentData),
    msgs.foldl (fun docs msg => (msg.attachments.getD []).foldl inheritedStep docs) acc =
      (docAtts msgs).foldl keyStep acc := by
  intro msgs
  induction msgs with
  | nil => intro acc; rfl
  | cons m msgs ih =>
    intro acc
    rw [List.foldl_cons]
    show (msgs.foldl (fun docs msg => (msg.attachments.getD []).foldl inheritedStep docs)
        ((m.attachments.getD []).foldl inheritedStep acc)) = _
    rw [ih, inheritedFold_filter]
    have : docAtts (m :: msgs) =
        ((m.attachments.getD []).filter (fun a => isDocumentType a.type)) ++ docAtts msgs := by
      simp [docAtts]
    rw [this, List.foldl_append]

/-- Key de-duplication only produces elements of its input. -/
theorem keyFirst_subset_aux : ∀ (l acc : List AttachmentData) (x : AttachmentData),
    x ∈ l.foldl keyStep acc → x ∈ acc ∨ x ∈ l := by
  intro l
  induction l with
  | nil => intro acc x hx; exact Or.inl hx
  | cons a l ih =>
    intro acc x hx
    rw [List.foldl_cons] at hx
    rcases ih _ x hx with hacc | hl
    · unfold keyStep at hacc
      by_cases hany : acc.any (fun doc => attKey doc == attKey a) = true
      · rw [if_pos hany] at hacc; exact Or.inl hacc
      · rw [if_neg hany] at hacc
        rcases List.mem_append.mp hacc with h | h
        · exact Or.inl h
        · exact Or.inr (by simp [List.mem_singleton.mp h])
    · exact Or.inr (List.mem_cons_of_mem _ hl)

/-- Key de-duplication preserves pairwise-distinct keys. -/
theorem keyFirst_pairwise_aux : ∀ (l acc : List AttachmentData),
    List.Pairwise (fun x y => attKey x ≠ attKey y) acc →
    List.Pairwise (fun x y => attKey x ≠ attKey y) (l.foldl keyStep acc) := by
  intro l
  induction l with
  | nil => intro acc h; exact h
  | cons a l ih =>
    intro acc h
    rw [List.foldl_cons]
    apply ih
    unfold keyStep
    by_cases hany : acc.any (fun doc => attKey doc == attKey a) = true
    · rw [if_pos hany]; exact h
    · rw [if_neg hany]
      rw [List.pairwise_append]
      refine ⟨h, List.pairwise_singleton _ _, ?_⟩
      intro x hx y hy
      rw [List.mem_singleton] at hy
      subst hy
      intro hkey
      apply hany
      rw [List.any_eq_true]
      exact ⟨x, hx, by simp [hkey]⟩

/-- C8 (amended): `inheritedDocuments` retains exactly the document-like
attachments of the path (PDF, `text/*`, or a type mentioning
javascript/python), de-duplicated by the concatenated `name:type` string
keeping the first occurrence — a key that can conflate distinct
`(name, type)` pairs containing `:`.  In particular no two retained
attachments share a key, so two ancestor attachments with equal name and
type yield one inherited document. -/
theorem C8_document_inheritance :
    ∀ msgs : List ChatMessage,
      inheritedDocuments msgs = keyFirst (docAtts msgs) ∧
      (∀ att ∈ inheritedDocuments msgs, isDocumentType att.type = true ∧
        ∃ m ∈ msgs, att ∈ m.attachments.getD []) ∧
      List.Pairwise (fun x y => attKey x ≠ attKey y) (inheritedDocuments msgs) ∧
      List.Pairwise (fun x y => ¬(x.name = y.name ∧ x.type = y.type))
        (inheritedDocuments msgs) := by
  intro msgs
  have hfus : inheritedDocuments msgs = keyFirst (docAtts msgs) :=
    inheritedDocuments_fusion msgs []
  have hpair : List.Pairwise (fun x y => attKey x ≠ attKey y)
      (inheritedDocuments msgs) := by
    rw [hfus]
    exact keyFirst_pairwise_aux (docAtts msgs) [] (List.Pairwise.nil)
  refine ⟨hfus, ?_, hpair, ?_⟩
  · intro att hatt
    rw [hfus] at hatt
    rcases keyFirst_subset_aux (docAtts msgs) [] att hatt with h | h
    · cases h
    · rw [docAtts, List.mem_flatMap] at h
      obtain ⟨m, hm, hin⟩ := h
      rw [List.mem_filter] at hin
      exact ⟨by simpa using hin.2, m, hm, hin.1⟩
  · exact hpair.imp (fun h hc => h (by rw [attKey, attKey, hc.1, hc.2]))

/-- Length of a fold of string concatenations. -/
theorem foldl_append_length (l : List String) : ∀ init : String,
    (l.foldl (fun a b => a ++ b) init).length =
      init.length + (l.map String.length).sum := by
  induction l with
  | nil => intro init; simp
  | cons x l ih =>
    intro init
    rw [List.foldl_cons, ih, String.length_append]
    simp
    omega

/-- The modelled fresh id differs from every id-like string of the state. -/
theorem freshNodeId_not_mem (s : ChatState) (x : String)
    (hx : x ∈ (s.nodes.map FlowNode.id) ++ (s.edges.map FlowEdge.id) ++
      (s.edges.map FlowEdge.source) ++ (s.edges.map FlowEdge.target)) :
    x ≠ freshNodeId s := by
  intro heq
  have hsum : x.length ≤ ((((s.nodes.map FlowNode.id) ++ (s.edges.map FlowEdge.id) ++
      (s.edges.map FlowEdge.source) ++ (s.edges.map FlowEdge.target)).map String.length)).sum := by
    apply List.single_le_sum (fun y _ => Nat.zero_le y)
    exact List.mem_map_of_mem String.length hx
  have hlen : (freshNodeId s).length = ((((s.nodes.map FlowNode.id) ++ (s.edges.map FlowEdge.id) ++
      (s.edges.map FlowEdge.source) ++ (s.edges.map FlowEdge.target)).map String.length)).sum + 1 := by
    unfold freshNodeId
    rw [String.length_append, foldl_append_length]
    have h0 : ("" : String).length = 0 := rfl
    have h1 : ("x" : String).length = 1 := rfl
    omega
  rw [heq, hlen] at hsum
  omega

/-- C9: `createNodeAndEdge` returns the empty sentinel id with the state
unchanged when the source node does not exist; when the source exists (and
its path walk terminates) it returns a fresh id used by no existing node,
and the post-state is exactly the old one plus one new node — with the
given label and empty history, positioned from the source — and one new
edge from the source to the new node. -/
theorem C9_create_node_and_edge :
    (∀ (s : ChatState) (sourceNodeId label : String) (kind : CreateKind),
      (∀ n ∈ s.nodes, n.id ≠ sourceNodeId) →
      createNodeAndEdge s sourceNodeId label kind = some ("", s)) ∧
    (∀ (s : ChatState) (sourceNodeId label : String) (kind : CreateKind)
       (sourceNode : FlowNode) (pathToSource : List ChatMessage),
      s.nodes.find? (fun n => n.id == sourceNodeId) = some sourceNode →
      getPathToNode s sourceNodeId = some pathToSource →
      createNodeAndEdge s sourceNodeId label kind = some (freshNodeId s,
        { s with
            nodes := s.nodes ++
              [{ id := freshNodeId s, type := "chatNode"
                 data := { label := label, chatHistory := [] }
                 position := (sourceNode.position.1 +
                     (if kind = CreateKind.branch then 350 else 0),
                   sourceNode.position.2 + 250) }]
            edges := s.edges ++
              [{ id := "e-" ++ sourceNodeId ++ "-" ++ freshNodeId s
                 source := sourceNodeId, target := freshNodeId s }] }) ∧
      (∀ n ∈ s.nodes, n.id ≠ freshNodeId s)) := by
  constructor
  · intro s sourceNodeId label kind hmissing
    have hfind : s.nodes.find? (fun n => n.id == sourceNodeId) = none := by
      rw [List.find?_eq_none]
      intro n hn
      simpa using hmissing n hn
    unfold createNodeAndEdge
    rw [hfind]
  · intro s sourceNodeId label kind sourceNode pathToSource hfind hpath
    have hfresh : ∀ n ∈ s.nodes, n.id ≠ freshNodeId s := by
      intro n hn
      apply freshNodeId_not_mem
      exact List.mem_append_left _ (List.mem_append_left _ (List.mem_append_left _
        (List.mem_map_of_mem FlowNode.id hn)))
    refine ⟨?_, hfresh⟩
    have hdup : (s.edges.any (fun x =>
        x.source == sourceNodeId && x.target == freshNodeId s)) = false := by
      rw [List.any_eq_false]
      intro e he
      have hne : e.target ≠ freshNodeId s := by
        apply freshNodeId_not_mem
        exact List.mem_append_right _ (List.mem_map_of_mem FlowEdge.target he)
      have hb : (e.target == freshNodeId s) = false := beq_eq_false_iff_ne.mpr hne
      simp [hb]
    have haddEdge :
        addEdge
          { id := "e-" ++ sourceNodeId ++ "-" ++ freshNodeId s
            source := sourceNodeId, target := freshNodeId s } s.edges =
        s.edges ++
          [{ id := "e-" ++ sourceNodeId ++ "-" ++ freshNodeId s
             source := sourceNodeId, target := freshNodeId s }] := by
      unfold addEdge
      simp only [hdup, Bool.false_eq_true, if_false]
    unfold createNodeAndEdge
    rw [hfind]
    simp only [hpath]
    rw [haddEdge]

/-- Witness for C9: creation from a missing source and from the root of the
initial state. -/
theorem C9_create_node_and_edge_witness :
    createNodeAndEdge W0 "nope" "lbl" CreateKind.branch = some ("", W0) ∧
    createNodeAndEdge W0 "root" "New" CreateKind.response = some (freshNodeId W0,
      { W0 with
          nodes := W0.nodes ++
            [{ id := freshNodeId W0, type := "chatNode"
               data := { label := "New", chatHistory := [] }
               position := (ROOT_NODE.position.1 +
                   (if CreateKind.response = CreateKind.branch then 350 else 0),
                 ROOT_NODE.position.2 + 250) }]
          edges := W0.edges ++
            [{ id := "e-" ++ "root" ++ "-" ++ freshNodeId W0
               source := "root", target := freshNodeId W0 }] }) :=
  ⟨C9_create_node_and_edge.1 W0 "nope" "lbl" CreateKind.branch (by decide),
   (C9_create_node_and_edge.2 W0 "root" "New" CreateKind.response ROOT_NODE []
      (by decide) (by decide)).1⟩
